import Mathlib

/-!
Verification of the contributor node's round-driven signing and aggregation
state machine (`Contributor::new` / `Contributor::run` in
`src/handlers/contributor.rs`), shallowly embedded in Lean.

Public keys, signatures, payload hashes, raw signature bytes and metadata are
opaque to the handler code: it only compares them for equality, orders keys,
and passes them to external cryptographic functions.  They are all modelled as
`Nat`.  The external collaborators (wire decode, `Sig::try_from`, the payload
validator, `aggregate_verify`, `aggregate_signatures`, the signer and the
transport's send results) are supplied as an explicit environment `Env`,
mirroring the fact that the handler treats them as black boxes.

`HashMap` is modelled as an association list with overwrite-on-insert
semantics (`ainsert` / `alookup`); `HashSet<u64>` as a `List Nat` with
membership-checked insertion.  The handler never observes hash-map iteration
order (the aggregation walk iterates the sorted `contributors` vector, not the
map), so the association-list model is observation-equivalent.
-/

namespace AvsNode

/-- Association list keyed by `Nat`, modelling `HashMap` with overwrite
semantics. -/
abbrev AList (β : Type) := List (Nat × β)

/-- Lookup in an association list (`HashMap::get`). -/
def alookup {β : Type} (k : Nat) : AList β → Option β
  | [] => none
  | (k', v) :: t => if k = k' then some v else alookup k t

/-- Insert with overwrite (`HashMap::insert`): replaces the value at an
existing key in place, otherwise appends the binding at the end. -/
def ainsert {β : Type} (k : Nat) (v : β) : AList β → AList β
  | [] => [(k, v)]
  | (k', v') :: t => if k = k' then (k, v) :: t else (k', v') :: ainsert k v t

/-- Payload variant of a wire `Aggregation` message
(`wire::aggregation::Payload`): `Start` or `Signature(bytes)`.  The signature
bytes are opaque (`Nat`). -/
inductive Payld : Type
  | start : Payld
  | signature (bytes : Nat) : Payld
deriving DecidableEq

/-- A decoded `wire::Aggregation` message: round number, opaque metadata, and
an optional payload variant. -/
structure Wire : Type where
  round : Nat
  metadata : Nat
  payload : Option Payld
deriving DecidableEq

/-- `AggregationInput` from `contributor/types.rs`: threshold plus the
g2-to-g1 public-key map. -/
structure AggInput : Type where
  threshold : Nat
  g1Map : AList Nat
deriving DecidableEq

/-- `AggregationData` from `contributor/types.rs`: threshold, g1 map, the
sorted contributors vector and the key-to-index map. -/
structure AggData : Type where
  threshold : Nat
  g1Map : AList Nat
  contributors : List Nat
  ordered : AList Nat
deriving DecidableEq

/-- The `Contributor` node struct: orchestrator key, the signer's own public
key, the own index `me`, and the optional aggregation block. -/
structure Contributor : Type where
  orchestrator : Nat
  selfKey : Nat
  me : Nat
  aggData : Option AggData
deriving DecidableEq

/-- External collaborators of `run`, treated as deterministic black boxes:
`Sig::try_from`, `validator.validate_and_return_expected_hash` (a pure
function of the re-encoded message), `aggregate_verify`,
`aggregate_signatures`, `signer.sign`, and the success/failure of the n-th
`sender.send` call. -/
structure Env : Type where
  sigTryFrom : Nat → Option Nat
  validate : Wire → Option Nat
  aggVerify : List Nat → Nat → Nat → Bool
  aggSigs : List Nat → Option Nat
  sign : Nat → Nat
  sendOk : Nat → Bool

/-- Mutable session state of `run`: the `signed` round set, the
round-to-(index-to-signature) store `sigs`, and a counter of send attempts
used to index `Env.sendOk`. -/
structure RState : Type where
  signed : List Nat
  sigs : AList (AList Nat)
  sendCount : Nat
deriving DecidableEq

/-- Observable events of one run: a successfully broadcast outbound message,
or an emitted aggregation `(round, payload hash, participating keys,
aggregate signature)`. -/
inductive Event : Type
  | sent (m : Wire) : Event
  | aggregated (round : Nat) (payloadHash : Nat) (participating : List Nat)
      (aggSig : Nat) : Event
deriving DecidableEq

/-- Outcome of `run`: clean termination (`Ok(())`), the `?`-propagated
validator error on an orchestrator `Start`, the `?`-propagated broadcast
error, or the `panic!` on aggregate-verification failure (and the `HashMap`
index panic on a missing g1 key). -/
inductive Outcome : Type
  | ok : Outcome
  | validatorErr : Outcome
  | sendErr : Outcome
  | panicked : Outcome
deriving DecidableEq

/-- Result of handling one inbound message: continue with a new state and
emitted events, or abort the whole run. -/
inductive StepRes : Type
  | next (st : RState) (evs : List Event) : StepRes
  | halt (o : Outcome) : StepRes
deriving DecidableEq

/-- The `for (idx, contributor) in contributors.iter().enumerate()` loop of
`new`, inserting `contributor → idx` into the map. -/
def buildOrderedAux : Nat → List Nat → AList Nat → AList Nat
  | _, [], m => m
  | i, k :: t, m => buildOrderedAux (i + 1) t (ainsert k i m)

/-- The `ordered_contributors` map built by `new`. -/
def buildOrdered (l : List Nat) : AList Nat := buildOrderedAux 0 l []

/-- Rust's `contributors.sort()`: over `Nat` keys with the canonical total
order, stable sorting is extensionally insertion sort. -/
def sortKeys (l : List Nat) : List Nat := l.insertionSort (· ≤ ·)

/-- `Contributor::new`.  Returns `none` exactly where the Rust code panics:
the `unwrap` of the lookup of the signer's own key in
`ordered_contributors`. -/
def newContributor (orch selfKey : Nat) (contributors : List Nat)
    (aggInput : Option AggInput) : Option Contributor :=
  let sorted := sortKeys contributors
  let ordered := buildOrdered sorted
  match alookup selfKey ordered with
  | none => none
  | some me =>
      some ⟨orch, selfKey, me,
        aggInput.map fun ai => ⟨ai.threshold, ai.g1Map, sorted, ordered⟩⟩

/-- `Contributor::get_contributor_index`: a lookup in
`ordered_contributors` when the aggregation block is present, `None`
otherwise. -/
def getContributorIndex (c : Contributor) (k : Nat) : Option Nat :=
  match c.aggData with
  | some ad => alookup k ad.ordered
  | none => none

/-- The `for (i, contributor) in contributors.iter().enumerate()` aggregation
walk: collect `(participating, participating_g1, sigs)` over indices holding a
stored signature, in index order.  `none` models the `g1_map[contributor]`
index panic on a missing g1 entry. -/
def collectAux (g1Map : AList Nat) (rsigs : AList Nat) :
    List Nat → Nat → Option (List Nat × List Nat × List Nat)
  | [], _ => some ([], [], [])
  | k :: t, i =>
      match alookup i rsigs with
      | none => collectAux g1Map rsigs t (i + 1)
      | some sg =>
          match alookup k g1Map with
          | none => none
          | some g1 =>
              match collectAux g1Map rsigs t (i + 1) with
              | none => none
              | some (ps, gs, ss) => some (k :: ps, g1 :: gs, sg :: ss)

/-- The peer branch of the `run` loop (sender is not the orchestrator and the
aggregation block is present): authenticate the sender, require an existing
round entry, reject duplicates, parse and verify the signature, insert it,
and aggregate when the stored count is at or above the threshold. -/
def aggStep (env : Env) (ad : AggData) (st : RState) (s : Nat) (msg : Wire) :
    StepRes :=
  match alookup s ad.ordered with
  | none => .next st []
  | some j =>
      match alookup msg.round st.sigs with
      | none => .next st []
      | some rsigs =>
          if (alookup j rsigs).isSome then .next st []
          else
            match msg.payload with
            | some (.signature b) =>
                match env.sigTryFrom b with
                | none => .next st []
                | some sg =>
                    match env.validate msg with
                    | none => .next st []
                    | some h =>
                        if env.aggVerify [s] h sg then
                          if (ainsert j sg rsigs).length < ad.threshold then
                            .next ⟨st.signed,
                              ainsert msg.round (ainsert j sg rsigs) st.sigs,
                              st.sendCount⟩ []
                          else
                            match collectAux ad.g1Map (ainsert j sg rsigs)
                                ad.contributors 0 with
                            | none => .halt .panicked
                            | some (parts, _g1s, sigsL) =>
                                match env.aggSigs sigsL with
                                | none =>
                                    .next ⟨st.signed,
                                      ainsert msg.round (ainsert j sg rsigs)
                                        st.sigs,
                                      st.sendCount⟩ []
                                | some asg =>
                                    if env.aggVerify parts h asg then
                                      .next ⟨st.signed,
                                        ainsert msg.round
                                          (ainsert j sg rsigs) st.sigs,
                                        st.sendCount⟩
                                        [.aggregated msg.round h parts asg]
                                    else .halt .panicked
                        else .next st []
            | _ => .next st []

/-- The orchestrator branch of the `run` loop: require a `Start` payload from
the orchestrator for an unsigned round, validate (fatal on failure), sign,
store the own signature, and broadcast (fatal on failure). -/
def orchStep (env : Env) (c : Contributor) (st : RState) (s : Nat)
    (msg : Wire) : StepRes :=
  match msg.payload with
  | some .start =>
      if s = c.orchestrator then
        if msg.round ∈ st.signed then .next st []
        else
          match env.validate msg with
          | none => .halt .validatorErr
          | some h =>
              if env.sendOk st.sendCount then
                .next ⟨msg.round :: st.signed,
                  ainsert msg.round
                    (ainsert c.me (env.sign h)
                      ((alookup msg.round st.sigs).getD []))
                    st.sigs,
                  st.sendCount + 1⟩
                  [.sent ⟨msg.round, msg.metadata,
                    some (.signature (env.sign h))⟩]
              else .halt .sendErr
      else .next st []
  | _ => .next st []

/-- One iteration of the `while let Ok((s, message)) = receiver.recv()` loop:
drop undecodable input, dispatch to the peer branch when the aggregation
block is present and the sender is not the orchestrator, otherwise to the
orchestrator branch. -/
def step (env : Env) (c : Contributor) (st : RState)
    (inb : Nat × Option Wire) : StepRes :=
  match inb.2 with
  | none => .next st []
  | some msg =>
      match c.aggData with
      | some ad =>
          if inb.1 = c.orchestrator then orchStep env c st inb.1 msg
          else aggStep env ad st inb.1 msg
      | none => orchStep env c st inb.1 msg

/-- The `run` loop over a finite inbound sequence; the end of the list models
`recv` returning an error (transport closed).  Returns the emitted event
trace and the outcome. -/
def runAux (env : Env) (c : Contributor) :
    RState → List (Nat × Option Wire) → List Event × Outcome
  | _, [] => ([], .ok)
  | st, i :: rest =>
      match step env c st i with
      | .next st' evs =>
          let r := runAux env c st' rest
          (evs ++ r.1, r.2)
      | .halt o => ([], o)

/-- Initial mutable state of `run`: empty `signed` set, empty signature
store. -/
def initState : RState := ⟨[], [], 0⟩

/-- A whole `run` invocation from the initial state. -/
def run (env : Env) (c : Contributor) (inputs : List (Nat × Option Wire)) :
    List Event × Outcome :=
  runAux env c initState inputs

/-- All states the loop passes through on the given inputs (stopping at a
fatal halt). -/
def statesAux (env : Env) (c : Contributor) :
    RState → List (Nat × Option Wire) → List RState
  | st, [] => [st]
  | st, i :: rest =>
      st ::
        match step env c st i with
        | .next st' _ => statesAux env c st' rest
        | .halt _ => []

/-- Reachable states of a run on the given inputs. -/
def statesOf (env : Env) (c : Contributor)
    (inputs : List (Nat × Option Wire)) : List RState :=
  statesAux env c initState inputs

/-- The state after processing the given inputs (unchanged past a halt). -/
def execAux (env : Env) (c : Contributor) :
    RState → List (Nat × Option Wire) → RState
  | st, [] => st
  | st, i :: rest =>
      match step env c st i with
      | .next st' _ => execAux env c st' rest
      | .halt _ => st

/-- Does this event broadcast an outbound message for round `r`? -/
def isSentFor (r : Nat) : Event → Bool
  | .sent m => m.round = r
  | _ => false

/-- Number of outbound messages for round `r` in a trace. -/
def countSentFor (r : Nat) (evs : List Event) : Nat :=
  (evs.filter (isSentFor r)).length

/-- Is this event an aggregation for round `r`? -/
def isAggFor (r : Nat) : Event → Bool
  | .aggregated r' _ _ _ => r' = r
  | _ => false

/-- Number of aggregation events for round `r` in a trace. -/
def countAggFor (r : Nat) (evs : List Event) : Nat :=
  (evs.filter (isAggFor r)).length

/-- Position of the first occurrence of `k` in a list. -/
def posOf (k : Nat) : List Nat → Nat
  | [] => 0
  | h :: t => if k = h then 0 else posOf k t + 1

/-- The `ordered_contributors` map of a node, empty when the aggregation
block is absent. -/
def orderedOf (c : Contributor) : AList Nat :=
  match c.aggData with
  | some ad => ad.ordered
  | none => []

/-- An index is a legitimate storage slot: the node's own index or the index
of some member key. -/
def GoodIdx (c : Contributor) (i : Nat) : Prop :=
  i = c.me ∨ ∃ k, alookup k (orderedOf c) = some i

/-- Every signature stored in the per-round store sits at a legitimate
index: provenance of stored partial signatures. -/
def StoredOk (c : Contributor) (st : RState) : Prop :=
  ∀ r rm, alookup r st.sigs = some rm → ∀ p ∈ rm, GoodIdx c p.1

theorem alookup_ainsert_self {β : Type} (k : Nat) (v : β) (l : AList β) :
    alookup k (ainsert k v l) = some v := by
  induction l with
  | nil => simp [ainsert, alookup]
  | cons p t ih =>
      obtain ⟨k', v'⟩ := p
      by_cases hk : k = k' <;> simp [ainsert, alookup, hk, ih]

theorem alookup_ainsert_ne {β : Type} {k k' : Nat} (v : β) (l : AList β)
    (hk : k ≠ k') : alookup k (ainsert k' v l) = alookup k l := by
  induction l with
  | nil => simp [ainsert, alookup, hk]
  | cons p t ih =>
      obtain ⟨k'', v''⟩ := p
      by_cases h1 : k' = k''
      · subst h1; simp [ainsert, alookup, hk]
      · by_cases h2 : k = k'' <;> simp [ainsert, alookup, h1, h2, ih]

theorem alookup_ainsert_cases {β : Type} {k k' : Nat} {v x : β}
    {l : AList β} (h : alookup k (ainsert k' v l) = some x) :
    (k = k' ∧ x = v) ∨ (k ≠ k' ∧ alookup k l = some x) := by
  by_cases hk : k = k'
  · subst hk
    rw [alookup_ainsert_self] at h
    exact Or.inl ⟨rfl, (Option.some_inj.mp h).symm⟩
  · rw [alookup_ainsert_ne v l hk] at h
    exact Or.inr ⟨hk, h⟩

theorem mem_ainsert {β : Type} {k : Nat} {v : β} {p : Nat × β}
    {l : AList β} (h : p ∈ ainsert k v l) : p = (k, v) ∨ p ∈ l := by
  induction l with
  | nil => simpa [ainsert] using h
  | cons q t ih =>
      obtain ⟨k', v'⟩ := q
      by_cases hk : k = k'
      · simp only [ainsert, if_pos hk, List.mem_cons] at h
        rcases h with h | h
        · exact Or.inl h
        · exact Or.inr (List.mem_cons_of_mem _ h)
      · simp only [ainsert, if_neg hk, List.mem_cons] at h
        rcases h with h | h
        · exact Or.inr (List.mem_cons.mpr (Or.inl h))
        · rcases ih h with h' | h'
          · exact Or.inl h'
          · exact Or.inr (List.mem_cons_of_mem _ h')

theorem ainsert_length_pos {β : Type} (k : Nat) (v : β) (l : AList β) :
    0 < (ainsert k v l).length := by
  cases l with
  | nil => simp [ainsert]
  | cons p t =>
      obtain ⟨k', v'⟩ := p
      by_cases hk : k = k' <;> simp [ainsert, hk]

theorem alookup_buildOrderedAux_of_not_mem {k : Nat} {l : List Nat}
    (hk : k ∉ l) : ∀ (i : Nat) (m : AList Nat),
    alookup k (buildOrderedAux i l m) = alookup k m := by
  induction l with
  | nil => intro i m; simp [buildOrderedAux]
  | cons h t ih =>
      intro i m
      have hkh : k ≠ h := fun hh => hk (hh ▸ List.mem_cons_self h t)
      have hkt : k ∉ t := fun ht => hk (List.mem_cons_of_mem h ht)
      rw [buildOrderedAux, ih hkt, alookup_ainsert_ne _ _ hkh]

theorem alookup_buildOrderedAux_of_nodup {k : Nat} {l : List Nat}
    (hnd : l.Nodup) (hk : k ∈ l) : ∀ (i : Nat) (m : AList Nat),
    alookup k (buildOrderedAux i l m) = some (i + posOf k l) := by
  induction l with
  | nil => cases hk
  | cons h t ih =>
      intro i m
      by_cases hkh : k = h
      · subst hkh
        have hkt : k ∉ t := (List.nodup_cons.mp hnd).1
        rw [buildOrderedAux, alookup_buildOrderedAux_of_not_mem hkt,
          alookup_ainsert_self]
        simp [posOf]
      · have hkt : k ∈ t := by
          rcases List.mem_cons.mp hk with h1 | h1
          · exact absurd h1 hkh
          · exact h1
        rw [buildOrderedAux, ih (List.nodup_cons.mp hnd).2 hkt]
        simp only [posOf, if_neg hkh, Option.some_inj]
        omega

theorem alookup_buildOrderedAux_mem {k : Nat} {l : List Nat} (hk : k ∈ l) :
    ∀ (i : Nat) (m : AList Nat), ∃ j,
      alookup k (buildOrderedAux i l m) = some (i + j) ∧ l[j]? = some k := by
  induction l with
  | nil => cases hk
  | cons h t ih =>
      intro i m
      by_cases hkt : k ∈ t
      · obtain ⟨j, hj1, hj2⟩ := ih hkt (i + 1) (ainsert h i m)
        refine ⟨j + 1, ?_, ?_⟩
        · rw [buildOrderedAux, hj1]; congr 1; omega
        · simpa using hj2
      · have hkh : k = h := by
          rcases List.mem_cons.mp hk with h1 | h1
          · exact h1
          · exact absurd h1 hkt
        subst hkh
        refine ⟨0, ?_, by simp⟩
        rw [buildOrderedAux, alookup_buildOrderedAux_of_not_mem hkt,
          alookup_ainsert_self]
        simp

theorem getElem?_posOf {k : Nat} {l : List Nat} (hk : k ∈ l) :
    l[posOf k l]? = some k := by
  induction l with
  | nil => cases hk
  | cons h t ih =>
      by_cases hkh : k = h
      · subst hkh; simp [posOf]
      · have hkt : k ∈ t := by
          rcases List.mem_cons.mp hk with h1 | h1
          · exact absurd h1 hkh
          · exact h1
        simpa [posOf, hkh] using ih hkt

theorem collectAux_sublist {g1Map rsigs : AList Nat} :
    ∀ {l : List Nat} {i : Nat} {ps gs ss : List Nat},
    collectAux g1Map rsigs l i = some (ps, gs, ss) → ps.Sublist l := by
  intro l
  induction l with
  | nil =>
      intro i ps gs ss h
      simp only [collectAux, Option.some_inj] at h
      obtain ⟨h1, -⟩ := Prod.mk.injEq .. ▸ h
      simp [← h1]
  | cons k t ih =>
      intro i ps gs ss h
      simp only [collectAux] at h
      cases hsg : alookup i rsigs with
      | none =>
          rw [hsg] at h
          exact (ih h).cons k
      | some sg =>
          rw [hsg] at h
          cases hg1 : alookup k g1Map with
          | none => rw [hg1] at h; cases h
          | some g1 =>
              rw [hg1] at h
              cases hrec : collectAux g1Map rsigs t (i + 1) with
              | none => rw [hrec] at h; cases h
              | some r =>
                  obtain ⟨ps', gs', ss'⟩ := r
                  rw [hrec] at h
                  simp only [Option.some_inj] at h
                  obtain ⟨h1, -, -⟩ := Prod.mk.injEq .. ▸ h
                  rw [← h1]
                  exact (ih hrec).cons₂ k

theorem aggStep_shape {env : Env} {ad : AggData} {st : RState} {s : Nat}
    {msg : Wire} {st' : RState} {evs : List Event}
    (h : aggStep env ad st s msg = .next st' evs) :
    st'.signed = st.signed ∧ st'.sendCount = st.sendCount ∧
      (evs = [] ∨ ∃ hh ps a, evs = [.aggregated msg.round hh ps a] ∧
        List.Sublist ps ad.contributors) ∧
      (st'.sigs = st.sigs ∨ ∃ j sg rsigs, alookup s ad.ordered = some j ∧
        alookup msg.round st.sigs = some rsigs ∧
        st'.sigs = ainsert msg.round (ainsert j sg rsigs) st.sigs) := by
  unfold aggStep at h
  cases h1 : alookup s ad.ordered with
  | none =>
      rw [h1] at h; simp only [] at h; cases h
      exact ⟨rfl, rfl, Or.inl rfl, Or.inl rfl⟩
  | some j =>
  rw [h1] at h; simp only [] at h
  cases h2 : alookup msg.round st.sigs with
  | none =>
      rw [h2] at h; simp only [] at h; cases h
      exact ⟨rfl, rfl, Or.inl rfl, Or.inl rfl⟩
  | some rsigs =>
  rw [h2] at h; simp only [] at h
  by_cases h3 : (alookup j rsigs).isSome
  · rw [if_pos h3] at h; cases h; exact ⟨rfl, rfl, Or.inl rfl, Or.inl rfl⟩
  · rw [if_neg h3] at h
    cases hp : msg.payload with
    | none =>
        rw [hp] at h; simp only [] at h; cases h
        exact ⟨rfl, rfl, Or.inl rfl, Or.inl rfl⟩
    | some pl =>
    rw [hp] at h
    cases pl with
    | start =>
        simp only [] at h; cases h
        exact ⟨rfl, rfl, Or.inl rfl, Or.inl rfl⟩
    | signature b =>
    simp only [] at h
    cases h4 : env.sigTryFrom b with
    | none =>
        rw [h4] at h; simp only [] at h; cases h
        exact ⟨rfl, rfl, Or.inl rfl, Or.inl rfl⟩
    | some sg =>
    rw [h4] at h; simp only [] at h
    cases h5 : env.validate msg with
    | none =>
        rw [h5] at h; simp only [] at h; cases h
        exact ⟨rfl, rfl, Or.inl rfl, Or.inl rfl⟩
    | some hh =>
    rw [h5] at h; simp only [] at h
    by_cases h6 : env.aggVerify [s] hh sg
    · rw [if_pos h6] at h
      by_cases h7 : (ainsert j sg rsigs).length < ad.threshold
      · rw [if_pos h7] at h; cases h
        exact ⟨rfl, rfl, Or.inl rfl, Or.inr ⟨j, sg, rsigs, rfl, rfl, rfl⟩⟩
      · rw [if_neg h7] at h
        cases h8 : collectAux ad.g1Map (ainsert j sg rsigs)
            ad.contributors 0 with
        | none => rw [h8] at h; simp only [] at h; cases h
        | some r =>
        obtain ⟨parts, g1s, sigsL⟩ := r
        rw [h8] at h; simp only [] at h
        cases h9 : env.aggSigs sigsL with
        | none =>
            rw [h9] at h; simp only [] at h; cases h
            exact ⟨rfl, rfl, Or.inl rfl, Or.inr ⟨j, sg, rsigs, rfl, rfl, rfl⟩⟩
        | some asg =>
        rw [h9] at h; simp only [] at h
        by_cases h10 : env.aggVerify parts hh asg
        · rw [if_pos h10] at h
          cases h
          exact ⟨rfl, rfl,
            Or.inr ⟨hh, parts, asg, rfl, collectAux_sublist h8⟩,
            Or.inr ⟨j, sg, rsigs, rfl, rfl, rfl⟩⟩
        · rw [if_neg h10] at h; cases h
    · rw [if_neg h6] at h; cases h; exact ⟨rfl, rfl, Or.inl rfl, Or.inl rfl⟩

theorem orchStep_shape {env : Env} {c : Contributor} {st : RState} {s : Nat}
    {msg : Wire} {st' : RState} {evs : List Event}
    (h : orchStep env c st s msg = .next st' evs) :
    (st' = st ∧ evs = []) ∨
      (∃ hh, env.validate msg = some hh ∧ s = c.orchestrator ∧
        msg.payload = some .start ∧ msg.round ∉ st.signed ∧
        st' = ⟨msg.round :: st.signed,
          ainsert msg.round
            (ainsert c.me (env.sign hh) ((alookup msg.round st.sigs).getD []))
            st.sigs,
          st.sendCount + 1⟩ ∧
        evs = [.sent ⟨msg.round, msg.metadata,
          some (.signature (env.sign hh))⟩]) := by
  unfold orchStep at h
  cases hp : msg.payload with
  | none => rw [hp] at h; simp only [] at h; cases h; exact Or.inl ⟨rfl, rfl⟩
  | some pl =>
  rw [hp] at h
  cases pl with
  | signature b => simp only [] at h; cases h; exact Or.inl ⟨rfl, rfl⟩
  | start =>
  simp only [] at h
  by_cases h1 : s = c.orchestrator
  · rw [if_pos h1] at h
    by_cases h2 : msg.round ∈ st.signed
    · rw [if_pos h2] at h; cases h; exact Or.inl ⟨rfl, rfl⟩
    · rw [if_neg h2] at h
      cases h3 : env.validate msg with
      | none => rw [h3] at h; simp only [] at h; cases h
      | some hh =>
      rw [h3] at h; simp only [] at h
      by_cases h4 : env.sendOk st.sendCount
      · rw [if_pos h4] at h; cases h
        exact Or.inr ⟨hh, rfl, h1, rfl, h2, rfl, rfl⟩
      · rw [if_neg h4] at h; cases h
  · rw [if_neg h1] at h; cases h; exact Or.inl ⟨rfl, rfl⟩

theorem step_shape {env : Env} {c : Contributor} {st : RState}
    {inb : Nat × Option Wire} {st' : RState} {evs : List Event}
    (h : step env c st inb = .next st' evs) :
    ((st'.signed = st.signed ∧ (evs = [] ∨ ∃ r hh ps a,
        evs = [.aggregated r hh ps a] ∧ ∃ ad, c.aggData = some ad ∧
          List.Sublist ps ad.contributors)) ∨
      (∃ sg r md, evs = [.sent ⟨r, md, some (.signature sg)⟩] ∧
        r ∉ st.signed ∧ st'.signed = r :: st.signed)) ∧
    (st'.sigs = st.sigs ∨ ∃ rd rm i sg,
      (alookup rd st.sigs = some rm ∨ rm = []) ∧ GoodIdx c i ∧
      st'.sigs = ainsert rd (ainsert i sg rm) st.sigs) := by
  unfold step at h
  cases hr : inb.2 with
  | none =>
      rw [hr] at h; simp only [] at h; cases h
      exact ⟨Or.inl ⟨rfl, Or.inl rfl⟩, Or.inl rfl⟩
  | some msg =>
  rw [hr] at h; simp only [] at h
  have orchCase : orchStep env c st inb.1 msg = .next st' evs →
      ((st'.signed = st.signed ∧ (evs = [] ∨ ∃ r hh ps a,
          evs = [.aggregated r hh ps a] ∧ ∃ ad, c.aggData = some ad ∧
            List.Sublist ps ad.contributors)) ∨
        (∃ sg r md, evs = [.sent ⟨r, md, some (.signature sg)⟩] ∧
          r ∉ st.signed ∧ st'.signed = r :: st.signed)) ∧
      (st'.sigs = st.sigs ∨ ∃ rd rm i sg,
        (alookup rd st.sigs = some rm ∨ rm = []) ∧ GoodIdx c i ∧
        st'.sigs = ainsert rd (ainsert i sg rm) st.sigs) := by
    intro ho
    rcases orchStep_shape ho with ⟨hst, hevs⟩ | ⟨hh, -, -, -, hns, hst, hevs⟩
    · subst hst; exact ⟨Or.inl ⟨rfl, Or.inl hevs⟩, Or.inl rfl⟩
    · constructor
      · refine Or.inr ⟨env.sign hh, msg.round, msg.metadata, hevs, hns, ?_⟩
        rw [hst]
      · refine Or.inr ⟨msg.round,
          (alookup msg.round st.sigs).getD [], c.me, env.sign hh, ?_,
          Or.inl rfl, by rw [hst]⟩
        cases hlk : alookup msg.round st.sigs with
        | none => exact Or.inr (by simp [hlk])
        | some rm0 => exact Or.inl (by simp [hlk])
  obtain had | ⟨ad, had⟩ : c.aggData = none ∨ ∃ ad, c.aggData = some ad := by
    cases c.aggData with
    | none => exact Or.inl rfl
    | some x => exact Or.inr ⟨x, rfl⟩
  · rw [had] at h; simp only [] at h; exact orchCase h
  · rw [had] at h; simp only [] at h
    by_cases hor : inb.1 = c.orchestrator
    · rw [if_pos hor] at h; exact orchCase h
    · rw [if_neg hor] at h
      rcases aggStep_shape h with ⟨hsg, hsc, hevs, hsigs⟩
      constructor
      · refine Or.inl ⟨hsg, ?_⟩
        rcases hevs with hevs | ⟨hh, ps, a, hevs, hsub⟩
        · exact Or.inl hevs
        · exact Or.inr ⟨msg.round, hh, ps, a, hevs, ad, had, hsub⟩
      · rcases hsigs with hsigs | ⟨j, sg, rsigs, hj, hlk, hsigs⟩
        · exact Or.inl hsigs
        · refine Or.inr ⟨msg.round, rsigs, j, sg, Or.inl hlk, ?_, hsigs⟩
          exact Or.inr ⟨inb.1, by rw [orderedOf, had]; exact hj⟩

theorem countSentFor_append (r : Nat) (a b : List Event) :
    countSentFor r (a ++ b) = countSentFor r a + countSentFor r b := by
  simp [countSentFor, List.filter_append]

theorem countSentFor_sent (r : Nat) (m : Wire) :
    countSentFor r [Event.sent m] = if m.round = r then 1 else 0 := by
  by_cases h : m.round = r <;> simp [countSentFor, isSentFor, h]

theorem countSentFor_aggregated (r rd hh a : Nat) (ps : List Nat) :
    countSentFor r [Event.aggregated rd hh ps a] = 0 := by
  simp [countSentFor, isSentFor]

theorem countSent_runAux (env : Env) (c : Contributor) (r : Nat) :
    ∀ (inputs : List (Nat × Option Wire)) (st : RState),
    countSentFor r (runAux env c st inputs).1 ≤
      if r ∈ st.signed then 0 else 1 := by
  intro inputs
  induction inputs with
  | nil =>
      intro st
      simp only [runAux, countSentFor, List.filter_nil, List.length_nil]
      split <;> omega
  | cons i rest ih =>
      intro st
      cases hstep : step env c st i with
      | halt o =>
          simp only [runAux, hstep, countSentFor, List.filter_nil,
            List.length_nil]
          split <;> omega
      | next st' evs =>
          simp only [runAux, hstep, countSentFor_append]
          rcases (step_shape hstep).1 with ⟨hsg, hevs⟩ |
              ⟨sg, r', md, hevs, hns, hsg⟩
          · have hevs0 : countSentFor r evs = 0 := by
              rcases hevs with hevs | ⟨rr, hh, ps, a, hevs, -⟩
              · simp [hevs, countSentFor]
              · simp [hevs, countSentFor_aggregated]
            have := ih st'
            rw [hsg] at this
            omega
          · subst hevs
            rw [countSentFor_sent]
            by_cases hrr : r' = r
            · subst hrr
              have hmem : r' ∈ st'.signed := by
                rw [hsg]; exact List.mem_cons_self _ _
              have := ih st'
              rw [if_pos hmem] at this
              have h1 : (if r' = r' then 1 else 0) = 1 := by simp
              rw [h1, if_neg hns]
              omega
            · have hiff : r ∈ st'.signed ↔ r ∈ st.signed := by
                rw [hsg, List.mem_cons]
                constructor
                · rintro (h1 | h1)
                  · exact absurd h1.symm hrr
                  · exact h1
                · exact Or.inr
              have := ih st'
              simp only [if_neg hrr, Nat.zero_add]
              by_cases hr : r ∈ st.signed
              · rw [if_pos (hiff.mpr hr)] at this
                rw [if_pos hr]
                omega
              · rw [if_neg (fun hc => hr (hiff.mp hc))] at this
                rw [if_neg hr]
                omega

theorem storedOk_step {env : Env} {c : Contributor} {st st' : RState}
    {inb : Nat × Option Wire} {evs : List Event}
    (h : step env c st inb = .next st' evs) (hok : StoredOk c st) :
    StoredOk c st' := by
  rcases (step_shape h).2 with hsigs | ⟨rd, rm, i, sg, hrm, hgood, hsigs⟩
  · intro r rmx hlk p hp
    rw [hsigs] at hlk
    exact hok r rmx hlk p hp
  · intro r rmx hlk p hp
    rw [hsigs] at hlk
    rcases alookup_ainsert_cases hlk with ⟨hrd, hrm'⟩ | ⟨-, hlk'⟩
    · subst hrm'
      rcases mem_ainsert hp with hpi | hpm
      · rw [hpi]; exact hgood
      · rcases hrm with hrm | hrm
        · exact hok rd rm hrm p hpm
        · rw [hrm] at hpm; cases hpm
    · exact hok r rmx hlk' p hp

theorem storedOk_statesAux (env : Env) (c : Contributor) :
    ∀ (inputs : List (Nat × Option Wire)) (st : RState),
    StoredOk c st → ∀ st' ∈ statesAux env c st inputs, StoredOk c st' := by
  intro inputs
  induction inputs with
  | nil =>
      intro st hok st' hmem
      simp only [statesAux, List.mem_singleton] at hmem
      rw [hmem]; exact hok
  | cons i rest ih =>
      intro st hok st' hmem
      simp only [statesAux, List.mem_cons] at hmem
      rcases hmem with hmem | hmem
      · rw [hmem]; exact hok
      · cases hstep : step env c st i with
        | halt o => rw [hstep] at hmem; cases hmem
        | next st1 evs =>
            rw [hstep] at hmem
            exact ih st1 (storedOk_step hstep hok) st' hmem

theorem agg_event_runAux {env : Env} {c : Contributor} :
    ∀ {inputs : List (Nat × Option Wire)} {st : RState}
      {r hh a : Nat} {ps : List Nat},
    Event.aggregated r hh ps a ∈ (runAux env c st inputs).1 →
    ∃ ad, c.aggData = some ad ∧ List.Sublist ps ad.contributors := by
  intro inputs
  induction inputs with
  | nil => intro st r hh a ps hmem; simp [runAux] at hmem
  | cons i rest ih =>
      intro st r hh a ps hmem
      cases hstep : step env c st i with
      | halt o => rw [runAux, hstep] at hmem; simp at hmem
      | next st' evs =>
          rw [runAux, hstep] at hmem
          simp only [List.mem_append] at hmem
          rcases hmem with hmem | hmem
          · rcases (step_shape hstep).1 with ⟨-, hevs⟩ |
                ⟨sg, r', md, hevs, -, -⟩
            · rcases hevs with hevs | ⟨rr, hh', ps', a', hevs, ad, had, hsub⟩
              · rw [hevs] at hmem; cases hmem
              · rw [hevs] at hmem
                rcases List.mem_singleton.mp hmem with heq
                cases heq
                exact ⟨ad, had, hsub⟩
            · rw [hevs] at hmem
              rcases List.mem_singleton.mp hmem with heq
              cases heq
          · exact ih hmem

/-- C2: for every round `r` and every sequence of inbound messages, the node
broadcasts at most one outbound `Signature` message with `round = r`; and an
orchestrator `Start` for a round already in the signed set is dropped with no
state change and no output. -/
theorem c2_at_most_once_signing (env : Env) (c : Contributor)
    (inputs : List (Nat × Option Wire)) (r : Nat) (st : RState) (s : Nat)
    (msg : Wire) :
    countSentFor r (run env c inputs).1 ≤ 1 ∧
      (s = c.orchestrator → msg.payload = some .start →
        msg.round ∈ st.signed → step env c st (s, some msg) = .next st []) := by
  constructor
  · have h := countSent_runAux env c r inputs initState
    simpa [run, initState] using h
  · intro hs hp hmem
    have horch : orchStep env c st s msg = .next st [] := by
      unfold orchStep
      rw [hp]
      simp only []
      rw [if_pos hs, if_pos hmem]
    unfold step
    simp only []
    cases had : c.aggData with
    | none => simp only []; exact horch
    | some ad => simp only []; rw [if_pos hs]; exact horch

/-- C2 witness: a concrete run sends at most one message for round 7, and a
replayed `Start` for the already-signed round 7 is dropped unchanged. -/
theorem c2_at_most_once_signing_witness :
    countSentFor 7 (run
      ⟨fun b => some b, fun _ => some 0, fun _ _ _ => true, fun _ => some 99,
        fun _ => 70, fun _ => true⟩
      ⟨5, 1, 0, some ⟨2, [(1, 0), (2, 0)], [1, 2], [(1, 0), (2, 1)]⟩⟩
      [(5, some ⟨7, 0, some .start⟩), (5, some ⟨7, 0, some .start⟩)]).1 ≤ 1 ∧
    step
      ⟨fun b => some b, fun _ => some 0, fun _ _ _ => true, fun _ => some 99,
        fun _ => 70, fun _ => true⟩
      ⟨5, 1, 0, some ⟨2, [(1, 0), (2, 0)], [1, 2], [(1, 0), (2, 1)]⟩⟩
      ⟨[7], [(7, [(0, 70)])], 1⟩ (5, some ⟨7, 0, some .start⟩) =
      .next ⟨[7], [(7, [(0, 70)])], 1⟩ [] :=
  ⟨(c2_at_most_once_signing _ _ _ 7 ⟨[7], [(7, [(0, 70)])], 1⟩ 5
      ⟨7, 0, some .start⟩).1,
    (c2_at_most_once_signing _
        ⟨5, 1, 0, some ⟨2, [(1, 0), (2, 0)], [1, 2], [(1, 0), (2, 1)]⟩⟩
        [] 7 _ 5 ⟨7, 0, some .start⟩).2 rfl rfl (by decide)⟩

/-- C3: in every reachable state of the run loop, every stored entry of the
per-round store sits at the node's own index or at the index of a member key
(no foreign-sender storage); and a `Start` whose sender is not the
orchestrator causes no state change and no output. -/
theorem c3_authenticated_provenance :
    (∀ (env : Env) (c : Contributor) (inputs : List (Nat × Option Wire))
        (st : RState), st ∈ statesOf env c inputs → StoredOk c st) ∧
      (∀ (env : Env) (c : Contributor) (st : RState) (s : Nat) (msg : Wire),
        msg.payload = some .start → ¬ s = c.orchestrator →
        step env c st (s, some msg) = .next st []) := by
  constructor
  · intro env c inputs st hmem
    refine storedOk_statesAux env c inputs initState ?_ st hmem
    intro r rm hlk
    simp only [initState, alookup] at hlk
    cases hlk
  · intro env c st s msg hp hs
    have horch : orchStep env c st s msg = .next st [] := by
      unfold orchStep
      rw [hp]
      simp only []
      rw [if_neg hs]
    unfold step
    simp only []
    cases had : c.aggData with
    | none => simp only []; exact horch
    | some ad =>
        simp only []
        rw [if_neg hs]
        unfold aggStep
        cases h1 : alookup s ad.ordered with
        | none => simp only []
        | some j =>
            simp only []
            cases h2 : alookup msg.round st.sigs with
            | none => simp only []
            | some rsigs =>
                simp only []
                by_cases h3 : (alookup j rsigs).isSome
                · rw [if_pos h3]
                · rw [if_neg h3, hp]

/-- C3 witness: applied to a concrete run and to a concrete spoofed
`Start`. -/
theorem c3_authenticated_provenance_witness :
    StoredOk ⟨5, 1, 0, some ⟨2, [(1, 0), (2, 0)], [1, 2], [(1, 0), (2, 1)]⟩⟩
      ⟨[7], [(7, [(0, 70)])], 1⟩ ∧
    step ⟨fun b => some b, fun _ => some 0, fun _ _ _ => true,
        fun _ => some 99, fun _ => 70, fun _ => true⟩
      ⟨5, 1, 0, some ⟨2, [(1, 0), (2, 0)], [1, 2], [(1, 0), (2, 1)]⟩⟩
      ⟨[], [], 0⟩ (2, some ⟨7, 0, some .start⟩) = .next ⟨[], [], 0⟩ [] :=
  ⟨c3_authenticated_provenance.1
      ⟨fun b => some b, fun _ => some 0, fun _ _ _ => true, fun _ => some 99,
        fun _ => 70, fun _ => true⟩
      ⟨5, 1, 0, some ⟨2, [(1, 0), (2, 0)], [1, 2], [(1, 0), (2, 1)]⟩⟩
      [(5, some ⟨7, 0, some .start⟩)] ⟨[7], [(7, [(0, 70)])], 1⟩ (by decide),
    c3_authenticated_provenance.2 _ _ ⟨[], [], 0⟩ 2 ⟨7, 0, some .start⟩ rfl
      (by decide)⟩

/-- C5: a peer `Signature` message for a round with no entry in the store yet
is dropped: the state (both the signed set and the store) is unchanged and
nothing is emitted. -/
theorem c5_early_peer_signature_dropped (env : Env) (c : Contributor)
    (st : RState) (s : Nat) (msg : Wire) (b : Nat)
    (hp : msg.payload = some (.signature b)) (hs : ¬ s = c.orchestrator)
    (hnr : alookup msg.round st.sigs = none) :
    step env c st (s, some msg) = .next st [] := by
  unfold step
  simp only []
  cases had : c.aggData with
  | none =>
      simp only []
      unfold orchStep
      rw [hp]
  | some ad =>
      simp only []
      rw [if_neg hs]
      unfold aggStep
      cases h1 : alookup s ad.ordered with
      | none => simp only []
      | some j =>
          simp only []
          rw [hnr]

/-- C5 witness: a concrete early peer signature for round 7 is dropped. -/
theorem c5_early_peer_signature_dropped_witness :
    step ⟨fun b => some b, fun _ => some 0, fun _ _ _ => true,
        fun _ => some 99, fun _ => 70, fun _ => true⟩
      ⟨5, 1, 0, some ⟨2, [(1, 0), (2, 0)], [1, 2], [(1, 0), (2, 1)]⟩⟩
      ⟨[], [], 0⟩ (2, some ⟨7, 0, some (.signature 11)⟩) =
      .next ⟨[], [], 0⟩ [] :=
  c5_early_peer_signature_dropped _ _ ⟨[], [], 0⟩ 2
    ⟨7, 0, some (.signature 11)⟩ 11 rfl (by decide) rfl

/-- C6: the participating keys of every emitted aggregation event form a
subsequence of the node's sorted members vector (hence are listed in
ascending member-index order), and are strictly ascending whenever the
members vector is; this holds for every arrival order of the inputs. -/
theorem c6_participating_ascending (env : Env) (c : Contributor)
    (inputs : List (Nat × Option Wire)) (r hh a : Nat) (ps : List Nat)
    (hmem : Event.aggregated r hh ps a ∈ (run env c inputs).1) :
    ∃ ad, c.aggData = some ad ∧ List.Sublist ps ad.contributors ∧
      (List.Pairwise (· < ·) ad.contributors → List.Pairwise (· < ·) ps) := by
  obtain ⟨ad, had, hsub⟩ := agg_event_runAux hmem
  exact ⟨ad, had, hsub, fun hpw => List.Pairwise.sublist hsub hpw⟩

/-- C6 witness: applied to a concrete run that emits an aggregation event. -/
theorem c6_participating_ascending_witness :
    ∃ ad, Contributor.aggData
        ⟨5, 1, 0, some ⟨1, [(1, 0), (2, 0)], [1, 2], [(1, 0), (2, 1)]⟩⟩ =
        some ad ∧
      List.Sublist [1, 2] ad.contributors ∧
      (List.Pairwise (· < ·) ad.contributors →
        List.Pairwise (· < ·) [1, 2]) :=
  c6_participating_ascending
    ⟨fun b => some b, fun _ => some 0, fun _ _ _ => true, fun _ => some 99,
      fun _ => 70, fun _ => true⟩
    ⟨5, 1, 0, some ⟨1, [(1, 0), (2, 0)], [1, 2], [(1, 0), (2, 1)]⟩⟩
    [(5, some ⟨7, 0, some .start⟩), (2, some ⟨7, 0, some (.signature 11)⟩)]
    7 0 99 [1, 2] (by decide)

/-- C9: the end of the input stream (`recv` error) yields a successful
result from any state; a halting step ends the run with that outcome; a
validator rejection of an orchestrator `Start` halts with the validator
error; and a failing broadcast halts with the send error. -/
theorem c9_error_disposition :
    (∀ (env : Env) (c : Contributor) (st : RState),
      runAux env c st [] = ([], .ok)) ∧
    (∀ (env : Env) (c : Contributor) (st : RState) (i : Nat × Option Wire)
        (rest : List (Nat × Option Wire)) (o : Outcome),
      step env c st i = .halt o → runAux env c st (i :: rest) = ([], o)) ∧
    (∀ (env : Env) (c : Contributor) (st : RState) (s : Nat) (msg : Wire),
      msg.payload = some .start → s = c.orchestrator →
      msg.round ∉ st.signed → env.validate msg = none →
      step env c st (s, some msg) = .halt .validatorErr) ∧
    (∀ (env : Env) (c : Contributor) (st : RState) (s : Nat) (msg : Wire)
        (hh : Nat),
      msg.payload = some .start → s = c.orchestrator →
      msg.round ∉ st.signed → env.validate msg = some hh →
      env.sendOk st.sendCount = false →
      step env c st (s, some msg) = .halt .sendErr) := by
  refine ⟨fun env c st => rfl, ?_, ?_, ?_⟩
  · intro env c st i rest o hstep
    rw [runAux, hstep]
  · intro env c st s msg hp hs hns hv
    have horch : orchStep env c st s msg = .halt .validatorErr := by
      unfold orchStep
      rw [hp]
      simp only []
      rw [if_pos hs, if_neg hns, hv]
    unfold step
    simp only []
    cases had : c.aggData with
    | none => simp only []; exact horch
    | some ad => simp only []; rw [if_pos hs]; exact horch
  · intro env c st s msg hh hp hs hns hv hsend
    have horch : orchStep env c st s msg = .halt .sendErr := by
      unfold orchStep
      rw [hp]
      simp only []
      rw [if_pos hs, if_neg hns, hv]
      simp only []
      rw [if_neg (by rw [hsend]; simp)]
    unfold step
    simp only []
    cases had : c.aggData with
    | none => simp only []; exact horch
    | some ad => simp only []; rw [if_pos hs]; exact horch

/-- C9 witness: applied to concrete transport-closed, halting-step,
validator-failure and send-failure instances. -/
theorem c9_error_disposition_witness :
    runAux ⟨fun b => some b, fun _ => none, fun _ _ _ => true,
        fun _ => some 99, fun _ => 70, fun _ => true⟩
      ⟨5, 1, 0, none⟩ ⟨[], [], 0⟩ [] = ([], .ok) ∧
    runAux ⟨fun b => some b, fun _ => none, fun _ _ _ => true,
        fun _ => some 99, fun _ => 70, fun _ => true⟩
      ⟨5, 1, 0, none⟩ ⟨[], [], 0⟩ [(5, some ⟨7, 0, some .start⟩)] =
      ([], .validatorErr) ∧
    step ⟨fun b => some b, fun _ => none, fun _ _ _ => true,
        fun _ => some 99, fun _ => 70, fun _ => true⟩
      ⟨5, 1, 0, none⟩ ⟨[], [], 0⟩ (5, some ⟨7, 0, some .start⟩) =
      .halt .validatorErr ∧
    step ⟨fun b => some b, fun _ => some 0, fun _ _ _ => true,
        fun _ => some 99, fun _ => 70, fun _ => false⟩
      ⟨5, 1, 0, none⟩ ⟨[], [], 0⟩ (5, some ⟨7, 0, some .start⟩) =
      .halt .sendErr := by
  refine ⟨c9_error_disposition.1 _ _ _, ?_, ?_, ?_⟩
  · exact c9_error_disposition.2.1 _ _ _ _ _ .validatorErr
      (c9_error_disposition.2.2.1 _ _ _ 5 ⟨7, 0, some .start⟩ rfl rfl
        (by decide) rfl)
  · exact c9_error_disposition.2.2.1 _ _ _ 5 ⟨7, 0, some .start⟩ rfl rfl
      (by decide) rfl
  · exact c9_error_disposition.2.2.2 _ _ _ 5 ⟨7, 0, some .start⟩ 0 rfl rfl
      (by decide) rfl rfl

/-- C7 counterexample: constructing a node from the list `[4, 4]` (the same
key twice) succeeds and stores the members sequence `[4, 4]`, which is not
duplicate-free — `new` sorts but does not deduplicate. -/
theorem c7_members_sorted_dedup_counterexample :
    newContributor 5 4 [4, 4] (some ⟨1, [(4, 0)]⟩) =
      some ⟨5, 4, 1, some ⟨1, [(4, 0)], [4, 4], [(4, 1)]⟩⟩ ∧
    ¬ List.Nodup [4, 4] := by
  exact ⟨by decide, by decide⟩

/-- C7 (amended): after construction via `new` the stored members sequence is
the input sorted ascending; it is duplicate-free when the input list is, but
duplicates in the input are retained. -/
theorem c7_members_sorted (l : List Nat) :
    List.Sorted (· ≤ ·) (sortKeys l) ∧
      (l.Nodup → (sortKeys l).Nodup) ∧
      ∀ (orch sk : Nat) (ai : AggInput) (c : Contributor) (ad : AggData),
        newContributor orch sk l (some ai) = some c → c.aggData = some ad →
        ad.contributors = sortKeys l := by
  refine ⟨?_, ?_, ?_⟩
  · simpa [sortKeys] using List.sorted_insertionSort (· ≤ ·) l
  · intro hnd
    simpa [sortKeys] using (List.perm_insertionSort (· ≤ ·) l).nodup_iff.mpr hnd
  · intro orch sk ai c ad hnew had
    unfold newContributor at hnew
    simp only [] at hnew
    cases hlk : alookup sk (buildOrdered (sortKeys l)) with
    | none => rw [hlk] at hnew; cases hnew
    | some me =>
        rw [hlk] at hnew
        simp only [Option.map, Option.some_inj] at hnew
        rw [← hnew] at had
        simp only [Option.some_inj] at had
        rw [← had]

/-- C7 witness: applied to the concrete input `[4, 2, 9]`. -/
theorem c7_members_sorted_witness :
    List.Sorted (· ≤ ·) (sortKeys [4, 2, 9]) ∧
      (sortKeys [4, 2, 9]).Nodup ∧
      AggData.contributors ⟨2, [], [2, 4, 9], [(2, 0), (4, 1), (9, 2)]⟩ =
        sortKeys [4, 2, 9] :=
  ⟨(c7_members_sorted [4, 2, 9]).1,
    (c7_members_sorted [4, 2, 9]).2.1 (by decide),
    (c7_members_sorted [4, 2, 9]).2.2 5 4 ⟨2, []⟩
      ⟨5, 4, 1, some ⟨2, [], [2, 4, 9], [(2, 0), (4, 1), (9, 2)]⟩⟩
      ⟨2, [], [2, 4, 9], [(2, 0), (4, 1), (9, 2)]⟩ (by decide) (by decide)⟩

/-- C8 counterexample: a node constructed without an aggregation block maps
even its own key (a member of the sorted members list) to `None`, so the
claim's "whether or not the node has an aggregation block" fails. -/
theorem c8_index_lookup_counterexample :
    newContributor 5 4 [4] none = some ⟨5, 4, 0, none⟩ ∧
    getContributorIndex ⟨5, 4, 0, none⟩ 4 = none ∧
    4 ∈ sortKeys [4] := by
  exact ⟨by decide, by decide, by decide⟩

/-- C8 (amended): for a node constructed via `new` with an aggregation block
from a duplicate-free key list, `get_contributor_index` returns the key's
position in the sorted members for member keys and `None` otherwise; for a
node constructed without an aggregation block it returns `None` for every
key. -/
theorem c8_index_lookup :
    (∀ (orch sk : Nat) (l : List Nat) (ai : AggInput) (c : Contributor),
      newContributor orch sk l (some ai) = some c → l.Nodup →
      ∀ k, getContributorIndex c k =
        if k ∈ sortKeys l then some (posOf k (sortKeys l)) else none) ∧
    (∀ (orch sk : Nat) (l : List Nat) (c : Contributor),
      newContributor orch sk l none = some c →
      ∀ k, getContributorIndex c k = none) := by
  constructor
  · intro orch sk l ai c hnew hnd k
    unfold newContributor at hnew
    simp only [] at hnew
    cases hlk : alookup sk (buildOrdered (sortKeys l)) with
    | none => rw [hlk] at hnew; cases hnew
    | some me =>
        rw [hlk] at hnew
        simp only [Option.map, Option.some_inj] at hnew
        rw [← hnew]
        unfold getContributorIndex
        simp only []
        have hnd' : (sortKeys l).Nodup := by
          simpa [sortKeys] using
            (List.perm_insertionSort (· ≤ ·) l).nodup_iff.mpr hnd
        by_cases hk : k ∈ sortKeys l
        · rw [if_pos hk]
          simpa [buildOrdered] using
            alookup_buildOrderedAux_of_nodup hnd' hk 0 []
        · rw [if_neg hk]
          simpa [buildOrdered, alookup] using
            alookup_buildOrderedAux_of_not_mem hk 0 ([] : AList Nat)
  · intro orch sk l c hnew k
    unfold newContributor at hnew
    simp only [] at hnew
    cases hlk : alookup sk (buildOrdered (sortKeys l)) with
    | none => rw [hlk] at hnew; cases hnew
    | some me =>
        rw [hlk] at hnew
        simp only [Option.map, Option.some_inj] at hnew
        rw [← hnew]
        unfold getContributorIndex
        simp only []

/-- C8 witness: applied to concrete nodes with and without an aggregation
block. -/
theorem c8_index_lookup_witness :
    getContributorIndex
        ⟨5, 4, 1, some ⟨2, [], [2, 4, 9], [(2, 0), (4, 1), (9, 2)]⟩⟩ 4 =
      (if 4 ∈ sortKeys [4, 2, 9] then some (posOf 4 (sortKeys [4, 2, 9]))
        else none) ∧
    getContributorIndex ⟨5, 4, 0, none⟩ 9 = none :=
  ⟨c8_index_lookup.1 5 4 [4, 2, 9] ⟨2, []⟩
      ⟨5, 4, 1, some ⟨2, [], [2, 4, 9], [(2, 0), (4, 1), (9, 2)]⟩⟩
      (by decide) (by decide) 4,
    c8_index_lookup.2 5 4 [4] ⟨5, 4, 0, none⟩ (by decide) 9⟩

/-- C10: `new` fails (the `unwrap` panics) exactly when the signer's own key
is absent from the contributors list; when it is present, `new` succeeds and
`me` is a position of the signer's key in the sorted list, the unique
position when the input is duplicate-free. -/
theorem c10_new_self_index (orch sk : Nat) (l : List Nat)
    (ai : Option AggInput) :
    (sk ∉ l → newContributor orch sk l ai = none) ∧
      (sk ∈ l → ∃ c, newContributor orch sk l ai = some c ∧
        (sortKeys l)[c.me]? = some sk ∧
        (l.Nodup → c.me = posOf sk (sortKeys l))) := by
  constructor
  · intro hns
    have hns' : sk ∉ sortKeys l := by
      intro h
      exact hns (by simpa [sortKeys] using (List.mem_insertionSort _).mp h)
    have hlk : alookup sk (buildOrdered (sortKeys l)) = none := by
      simpa [buildOrdered, alookup] using
        alookup_buildOrderedAux_of_not_mem hns' 0 ([] : AList Nat)
    unfold newContributor
    simp only []
    rw [hlk]
  · intro hmem
    have hmem' : sk ∈ sortKeys l := by
      simpa [sortKeys] using (List.perm_insertionSort (fun a b => a <= b) l).mem_iff.mpr hmem
    obtain ⟨j, hj1, hj2⟩ := alookup_buildOrderedAux_mem hmem' 0 []
    have hlk : alookup sk (buildOrdered (sortKeys l)) = some j := by
      simpa [buildOrdered] using hj1
    refine ⟨⟨orch, sk, j,
      ai.map fun a => ⟨a.threshold, a.g1Map, sortKeys l,
        buildOrdered (sortKeys l)⟩⟩, ?_, ?_, ?_⟩
    · unfold newContributor
      simp only []
      rw [hlk]
    · simpa using hj2
    · intro hnd
      have hnd' : (sortKeys l).Nodup := by
        simpa [sortKeys] using
          (List.perm_insertionSort (· ≤ ·) l).nodup_iff.mpr hnd
      have h2 : alookup sk (buildOrdered (sortKeys l)) =
          some (0 + posOf sk (sortKeys l)) := by
        simpa [buildOrdered] using
          alookup_buildOrderedAux_of_nodup hnd' hmem' 0 []
      rw [hlk] at h2
      simp only [Option.some_inj] at h2
      show j = posOf sk (sortKeys l)
      omega

/-- C10 witness: a missing self key makes `new` fail; a present self key
yields the self index in the sorted list. -/
theorem c10_new_self_index_witness :
    newContributor 5 8 [4, 2] none = none ∧
    ∃ c, newContributor 5 4 [4, 2] none = some c ∧
      (sortKeys [4, 2])[c.me]? = some 4 ∧
      ([4, 2].Nodup → c.me = posOf 4 (sortKeys [4, 2])) :=
  ⟨(c10_new_self_index 5 8 [4, 2] none).1 (by decide),
    (c10_new_self_index 5 4 [4, 2] none).2 (by decide)⟩

/-- C1 counterexample: with threshold 1, a `Start` followed by two valid
partial signatures from two distinct peers makes the run emit two
aggregation events for round 7 — a later valid partial inserted while the
count is already at or above the threshold triggers aggregation again, so
"at most one aggregation event per round" is false. -/
theorem c1_single_aggregation_counterexample :
    ¬ (countAggFor 7 (run
        ⟨fun b => some b, fun _ => some 0, fun _ _ _ => true,
          fun _ => some 99, fun _ => 70, fun _ => true⟩
        ⟨5, 1, 0, some ⟨1, [(1, 0), (2, 0), (3, 0)], [1, 2, 3],
          [(1, 0), (2, 1), (3, 2)]⟩⟩
        [(5, some ⟨7, 0, some .start⟩),
          (2, some ⟨7, 0, some (.signature 11)⟩),
          (3, some ⟨7, 0, some (.signature 12)⟩)]).1 ≤ 1) := by
  decide

/-- C1 (amended): aggregation is attempted whenever a valid partial is
inserted and the resulting stored count is at or above the threshold — at
the first crossing and again on every later valid partial from a new
contributor; below the threshold no event is emitted. -/
theorem c1_aggregation_on_every_crossing (env : Env) (c : Contributor)
    (ad : AggData) (st : RState) (s : Nat) (msg : Wire)
    (j sg b hh asg : Nat) (rsigs : AList Nat) (parts g1s sigsL : List Nat)
    (had : c.aggData = some ad) (hor : ¬ s = c.orchestrator)
    (hj : alookup s ad.ordered = some j)
    (hrs : alookup msg.round st.sigs = some rsigs)
    (hdup : alookup j rsigs = none)
    (hp : msg.payload = some (.signature b))
    (htf : env.sigTryFrom b = some sg)
    (hv : env.validate msg = some hh)
    (hvs : env.aggVerify [s] hh sg = true) :
    ((ainsert j sg rsigs).length < ad.threshold →
      step env c st (s, some msg) = .next
        ⟨st.signed, ainsert msg.round (ainsert j sg rsigs) st.sigs,
          st.sendCount⟩ []) ∧
    (ad.threshold ≤ (ainsert j sg rsigs).length →
      collectAux ad.g1Map (ainsert j sg rsigs) ad.contributors 0 =
        some (parts, g1s, sigsL) →
      env.aggSigs sigsL = some asg →
      env.aggVerify parts hh asg = true →
      step env c st (s, some msg) = .next
        ⟨st.signed, ainsert msg.round (ainsert j sg rsigs) st.sigs,
          st.sendCount⟩ [.aggregated msg.round hh parts asg]) := by
  have hpre : step env c st (s, some msg) = aggStep env ad st s msg := by
    unfold step
    simp only []
    rw [had]
    simp only []
    rw [if_neg hor]
  constructor
  · intro hlt
    rw [hpre]
    unfold aggStep
    rw [hj]
    simp only []
    rw [hrs]
    simp only []
    rw [hdup]
    rw [if_neg (show ¬ ((none : Option Nat).isSome = true) by simp)]
    rw [hp]
    simp only []
    rw [htf]
    simp only []
    rw [hv]
    simp only []
    rw [if_pos hvs, if_pos hlt]
  · intro hge hcol hagg hva
    rw [hpre]
    unfold aggStep
    rw [hj]
    simp only []
    rw [hrs]
    simp only []
    rw [hdup]
    rw [if_neg (show ¬ ((none : Option Nat).isSome = true) by simp)]
    rw [hp]
    simp only []
    rw [htf]
    simp only []
    rw [hv]
    simp only []
    rw [if_pos hvs, if_neg (by omega), hcol]
    simp only []
    rw [hagg]
    simp only []
    rw [if_pos hva]

/-- C1 witness: the third partial of the counterexample run, arriving with
the count already at the threshold, triggers a further aggregation event. -/
theorem c1_aggregation_on_every_crossing_witness :
    step ⟨fun b => some b, fun _ => some 0, fun _ _ _ => true,
        fun _ => some 99, fun _ => 70, fun _ => true⟩
      ⟨5, 1, 0, some ⟨1, [(1, 0), (2, 0), (3, 0)], [1, 2, 3],
        [(1, 0), (2, 1), (3, 2)]⟩⟩
      ⟨[7], [(7, [(0, 70), (1, 11)])], 1⟩
      (3, some ⟨7, 0, some (.signature 12)⟩) =
      .next ⟨[7], [(7, [(0, 70), (1, 11), (2, 12)])], 1⟩
        [.aggregated 7 0 [1, 2, 3] 99] :=
  (c1_aggregation_on_every_crossing _ _
      ⟨1, [(1, 0), (2, 0), (3, 0)], [1, 2, 3], [(1, 0), (2, 1), (3, 2)]⟩
      ⟨[7], [(7, [(0, 70), (1, 11)])], 1⟩ 3 ⟨7, 0, some (.signature 12)⟩
      2 12 12 0 99 [(0, 70), (1, 11)] [1, 2, 3] [0, 0, 0] [70, 11, 12]
      rfl (by decide) rfl rfl rfl rfl rfl rfl rfl).2
    (by decide) (by decide) rfl rfl

/-- C4 counterexample: with threshold 1, handling the orchestrator's `Start`
stores the node's own partial signature for round 7 (the stored count
reaches the threshold), yet no aggregation event is emitted — the Start
branch never attempts aggregation. -/
theorem c4_threshold_one_counterexample :
    countAggFor 7 (run
      ⟨fun b => some b, fun _ => some 0, fun _ _ _ => true,
        fun _ => some 99, fun _ => 70, fun _ => true⟩
      ⟨5, 1, 0, some ⟨1, [(1, 0), (2, 0)], [1, 2], [(1, 0), (2, 1)]⟩⟩
      [(5, some ⟨7, 0, some .start⟩)]).1 = 0 ∧
    execAux
      ⟨fun b => some b, fun _ => some 0, fun _ _ _ => true,
        fun _ => some 99, fun _ => 70, fun _ => true⟩
      ⟨5, 1, 0, some ⟨1, [(1, 0), (2, 0)], [1, 2], [(1, 0), (2, 1)]⟩⟩
      initState [(5, some ⟨7, 0, some .start⟩)] =
      ⟨[7], [(7, [(0, 70)])], 1⟩ := by
  exact ⟨by decide, by decide⟩

/-- C4 (amended): with threshold 1, an aggregation event is emitted upon
every successfully inserted valid peer partial (in particular the first);
the node's own self-insertion while handling a `Start` never emits an
aggregation event. -/
theorem c4_threshold_one_aggregation (env : Env) (c : Contributor)
    (ad : AggData) (st : RState) (s : Nat) (msg : Wire)
    (j sg b hh asg : Nat) (rsigs : AList Nat) (parts g1s sigsL : List Nat)
    (had : c.aggData = some ad) (hor : ¬ s = c.orchestrator)
    (hj : alookup s ad.ordered = some j)
    (hrs : alookup msg.round st.sigs = some rsigs)
    (hdup : alookup j rsigs = none)
    (hp : msg.payload = some (.signature b))
    (htf : env.sigTryFrom b = some sg)
    (hv : env.validate msg = some hh)
    (hvs : env.aggVerify [s] hh sg = true)
    (ht1 : ad.threshold = 1) :
    (collectAux ad.g1Map (ainsert j sg rsigs) ad.contributors 0 =
        some (parts, g1s, sigsL) →
      env.aggSigs sigsL = some asg →
      env.aggVerify parts hh asg = true →
      step env c st (s, some msg) = .next
        ⟨st.signed, ainsert msg.round (ainsert j sg rsigs) st.sigs,
          st.sendCount⟩ [.aggregated msg.round hh parts asg]) ∧
    (∀ (env' : Env) (c' : Contributor) (st' st'' : RState) (s' : Nat)
        (msg' : Wire) (evs : List Event) (r hx ax : Nat) (px : List Nat),
      orchStep env' c' st' s' msg' = .next st'' evs →
      Event.aggregated r hx px ax ∉ evs) := by
  constructor
  · intro hcol hagg hva
    have hlen : ¬ ((ainsert j sg rsigs).length < ad.threshold) := by
      have := ainsert_length_pos j sg rsigs
      omega
    have hpre : step env c st (s, some msg) = aggStep env ad st s msg := by
      unfold step
      simp only []
      rw [had]
      simp only []
      rw [if_neg hor]
    rw [hpre]
    unfold aggStep
    rw [hj]
    simp only []
    rw [hrs]
    simp only []
    rw [hdup]
    rw [if_neg (show ¬ ((none : Option Nat).isSome = true) by simp)]
    rw [hp]
    simp only []
    rw [htf]
    simp only []
    rw [hv]
    simp only []
    rw [if_pos hvs, if_neg hlen, hcol]
    simp only []
    rw [hagg]
    simp only []
    rw [if_pos hva]
  · intro env' c' st' st'' s' msg' evs r hx ax px h hmem
    rcases orchStep_shape h with ⟨-, hevs⟩ | ⟨hh', -, -, -, -, -, hevs⟩
    · rw [hevs] at hmem
      cases hmem
    · rw [hevs] at hmem
      simp at hmem

/-- C4 witness: with threshold 1, the first valid peer partial triggers an
aggregation event, while the concrete `Start` handling emits only the
outbound broadcast. -/
theorem c4_threshold_one_aggregation_witness :
    step ⟨fun b => some b, fun _ => some 0, fun _ _ _ => true,
        fun _ => some 99, fun _ => 70, fun _ => true⟩
      ⟨5, 1, 0, some ⟨1, [(1, 0), (2, 0)], [1, 2], [(1, 0), (2, 1)]⟩⟩
      ⟨[7], [(7, [(0, 70)])], 1⟩ (2, some ⟨7, 0, some (.signature 11)⟩) =
      .next ⟨[7], [(7, [(0, 70), (1, 11)])], 1⟩
        [.aggregated 7 0 [1, 2] 99] ∧
    Event.aggregated 7 0 [1, 2] 99 ∉
      [Event.sent ⟨7, 0, some (.signature 70)⟩] :=
  ⟨(c4_threshold_one_aggregation _ _
      ⟨1, [(1, 0), (2, 0)], [1, 2], [(1, 0), (2, 1)]⟩
      ⟨[7], [(7, [(0, 70)])], 1⟩ 2 ⟨7, 0, some (.signature 11)⟩
      1 11 11 0 99 [(0, 70)] [1, 2] [0, 0] [70, 11]
      rfl (by decide) rfl rfl rfl rfl rfl rfl rfl rfl).1
      rfl rfl rfl,
    (c4_threshold_one_aggregation
      ⟨fun b => some b, fun _ => some 0, fun _ _ _ => true,
        fun _ => some 99, fun _ => 70, fun _ => true⟩
      ⟨5, 1, 0, some ⟨1, [(1, 0), (2, 0)], [1, 2], [(1, 0), (2, 1)]⟩⟩
      ⟨1, [(1, 0), (2, 0)], [1, 2], [(1, 0), (2, 1)]⟩
      ⟨[7], [(7, [(0, 70)])], 1⟩ 2 ⟨7, 0, some (.signature 11)⟩
      1 11 11 0 99 [(0, 70)] [1, 2] [0, 0] [70, 11]
      rfl (by decide) rfl rfl rfl rfl rfl rfl rfl rfl).2
      ⟨fun b => some b, fun _ => some 0, fun _ _ _ => true,
        fun _ => some 99, fun _ => 70, fun _ => true⟩
      ⟨5, 1, 0, some ⟨1, [(1, 0), (2, 0)], [1, 2], [(1, 0), (2, 1)]⟩⟩
      ⟨[], [], 0⟩ ⟨[7], [(7, [(0, 70)])], 1⟩ 5 ⟨7, 0, some .start⟩
      [Event.sent ⟨7, 0, some (.signature 70)⟩] 7 0 99 [1, 2]
      (by decide)⟩

end AvsNode
